import Mathlib

/-
Verification development for forge/experiment_tools.py.

This file gives a shallow embedding of the checkpoint-directory manager in
src/forge/experiment_tools.py and proves the behavioural claims about it.

Modelling conventions:
- Python strings are lists of characters (PyStr).
- Python dicts are association lists (insertion order preserved; updating an
  existing key keeps its position, new keys are appended), matching CPython.
- Machine-visible state (filesystem under the checkpoint root, sys.argv,
  and the global flag registry) is an explicit World record threaded through
  init_checkpoint; a Python exception is an Except.error result paired with
  the state at the moment of the raise (mutations made before the raise stay
  visible, as in Python).
- External collaborators that are part of the repository but not under src
  (forge.flags, the config modules, git) are parameters: loadEff is the
  registry effect of importing the two config modules, parseKnown is
  FLAGS._parse_flags (consumes recognized argv entries into the registry and
  returns the passthrough remainder), gitHash is the outcome of
  `git rev-parse HEAD` (none models subprocess.CalledProcessError).
-/

abbrev PyStr := List Char

def chars (s : String) : PyStr := s.toList

/-- Decimal digit character, used to model Python str(int). -/
def digitChar (d : Nat) : Char :=
  match d with
  | 0 => '0' | 1 => '1' | 2 => '2' | 3 => '3' | 4 => '4'
  | 5 => '5' | 6 => '6' | 7 => '7' | 8 => '8' | _ => '9'

def digitVal (c : Char) : Nat := c.toNat - 48

/-- Value of a big-endian digit string, as computed by Python int() on digits. -/
def digitsToNat (l : PyStr) : Nat := l.foldl (fun a c => 10 * a + digitVal c) 0

/-- Little-endian decimal digits of n; the fuel argument only bounds recursion
depth (fuel = n always suffices since n/10 < n for n > 0). -/
def natToRevAux : Nat → Nat → List Char
  | 0, _ => []
  | fuel + 1, n => if n = 0 then [] else digitChar (n % 10) :: natToRevAux fuel (n / 10)

/-- Python str(n) for a natural number. -/
def natToStr (n : Nat) : PyStr := if n = 0 then chars "0" else (natToRevAux n n).reverse

/-- Python str(i) for an integer. -/
def intToStr (i : Int) : PyStr :=
  if i < 0 then '-' :: natToStr i.natAbs else natToStr i.natAbs

/-- Leading/trailing whitespace removal, as Python int() applies to its input. -/
def stripWs (s : PyStr) : PyStr :=
  ((s.dropWhile Char.isWhitespace).reverse.dropWhile Char.isWhitespace).reverse

/-- Python int(s): optional surrounding whitespace, optional single sign,
then a nonempty run of decimal digits; none models the ValueError raise. -/
def pyIntParse (s : PyStr) : Option Int :=
  let t := stripWs s
  let sgn : Int := if t.take 1 = chars "-" then -1 else 1
  let ds := if t.take 1 = chars "-" ∨ t.take 1 = chars "+" then t.drop 1 else t
  if ds ≠ [] ∧ ds.all Char.isDigit then some (sgn * (digitsToNat ds : Int)) else none

/-- Worker for Python s.replace(pat, ""): removes every non-overlapping
occurrence of pat, scanning left to right.  The fuel argument only bounds
recursion depth; fuel = s.length suffices because every step consumes at
least one character when pat is nonempty. -/
def pyReplaceAux (pat : PyStr) : Nat → PyStr → PyStr
  | _, [] => []
  | 0, s => s
  | fuel + 1, a :: rest =>
      if pat.isPrefixOf (a :: rest) then pyReplaceAux pat fuel ((a :: rest).drop pat.length)
      else a :: pyReplaceAux pat fuel rest

/-- Python s.replace(pat, "") for a nonempty pattern (the only use in the
source is pat = ".index"). -/
def pyReplace (s pat : PyStr) : PyStr := if pat = [] then s else pyReplaceAux pat s.length s

/-- Python s.split(c) for a one-character separator: always returns at least
one (possibly empty) piece. -/
def splitChar (c : Char) : PyStr → List PyStr
  | [] => [[]]
  | a :: rest =>
      match splitChar c rest with
      | [] => [[]]
      | h :: t => if a = c then [] :: h :: t else (a :: h) :: t

/-- posixpath.join(a, b): b if absolute, else a + b with a single slash
inserted unless a is empty or already ends in a slash. -/
def osJoin (a b : PyStr) : PyStr :=
  if b.take 1 = chars "/" then b
  else if a = [] ∨ a.getLastD ' ' = '/' then a ++ b
  else a ++ '/' :: b

/-- The maximal suffix of s containing no occurrence of c (equivalently: the
text after the last c, or all of s when c does not occur). -/
def afterLastChar (c : Char) (s : PyStr) : PyStr :=
  (s.reverse.takeWhile (fun x => x ≠ c)).reverse

/-- os.path.basename for the slash-free names this module joins. -/
def baseName (p : PyStr) : PyStr := afterLastChar '/' p

/-- re.search(r'.ckpt-[0-9]+$', f) viewed as a Bool: f ends in a nonempty
digit run preceded by the literal "ckpt-", itself preceded by at least one
arbitrary character (the dot in the pattern is unescaped, so it matches any
character).  The digit run of any match must be the maximal digit suffix,
since the character before a shorter run would be a digit, not the '-'
required by the pattern; hence this check is equivalent to the regex. -/
def ckptMatch (f : PyStr) : Bool :=
  let rev := f.reverse
  let ds := rev.takeWhile Char.isDigit
  !ds.isEmpty && (chars "-tpkc").isPrefixOf (rev.drop ds.length)
    && !(rev.drop (ds.length + 5)).isEmpty

/-- Python-exception kinds raised by the embedded code paths.  In the source,
resumeRootMissing, rootNotDir, nothingToResume are explicit `raise
ValueError` at lines 84, 89, 101; badFolderName is the ValueError raised by
int() on a non-numeric run-folder name at line 96; extractParse is the
ValueError raised by int() at line 150; unparsedFlags is the RuntimeError of
assert_all_flags_parsed (line 254); missingFlagFile is the IOError of
json_load when the selected folder has no flags.json (line 122). -/
inductive Err where
  | resumeRootMissing
  | rootNotDir
  | nothingToResume
  | badFolderName
  | unparsedFlags
  | missingFlagFile
  | extractParse
deriving DecidableEq

/-- Errors that are Python ValueError. -/
def Err.isValueError : Err → Bool
  | .unparsedFlags => false
  | .missingFlagFile => false
  | _ => true

/-- The root-validation/selection-phase errors: what the specification calls
ConfigurationError (invalid/missing root, resume with nothing to resume
from, non-directory root, non-numeric run-folder name); each is a Python
ValueError raised before any mutation. -/
def Err.isConfigError : Err → Bool
  | .resumeRootMissing => true
  | .rootNotDir => true
  | .nothingToResume => true
  | .badFolderName => true
  | _ => false

/-- True when an Except result is a selection-phase (configuration) error. -/
def errIsConfig {α : Type} : Except Err α → Bool
  | .error e => e.isConfigError
  | .ok _ => false

-- Association-list model of Python dict (insertion order; update in place).

def dictLookup {α β : Type} [DecidableEq α] : List (α × β) → α → Option β
  | [], _ => none
  | p :: r, k => if p.1 = k then some p.2 else dictLookup r k

def dictInsert {α β : Type} [DecidableEq α] (d : List (α × β)) (k : α) (v : β) :
    List (α × β) :=
  if d.any (fun p => p.1 = k) then d.map (fun p => if p.1 = k then (k, v) else p)
  else d ++ [(k, v)]

/-- Python dict built from a pair list (a dict comprehension): later pairs
with an existing key overwrite the value in place. -/
def dictOf {α β : Type} [DecidableEq α] (l : List (α × β)) : List (α × β) :=
  l.foldl (fun d p => dictInsert d p.1 p.2) []

/-- Python old.update(new): every key of new gets its new value (in place for
keys already present, appended in order for fresh keys). -/
def dictUpdate {α β : Type} [DecidableEq α] (old new : List (α × β)) :
    List (α × β) :=
  old.map (fun p => match dictLookup new p.1 with | some v => (p.1, v) | none => p)
    ++ new.filter (fun p => (dictLookup old p.1).isNone)

def keysOf {α β : Type} (l : List (α × β)) : List α := l.map Prod.fst

/-- max over a list of integers (Python max on a nonempty collection). -/
def listMax (l : List Int) : Int := l.foldl max (l.headD 0)

abbrev FlagSet := List (PyStr × PyStr)

-- experiment_tools.py, line 149-150.
/-- extract_itr_from_modelfile: int(model_path.split('-')[-1].split('.')[0]). -/
def extract_itr_from_modelfile (p : PyStr) : Except Err Int :=
  match pyIntParse ((splitChar '.' ((splitChar '-' p).getLastD [])).headD []) with
  | some n => .ok n
  | none => .error .extractParse

-- experiment_tools.py, line 153-159.  The folder listing os.listdir(model_dir)
-- is passed in as `entries`; the result is the dict iteration-number ↦ path.
/-- find_model_files: strip ".index" occurrences, keep names matching
re.search(r'.ckpt-[0-9]+$', ·), and build {extract_itr(f): join(dir, f)}. -/
def find_model_files (dir : PyStr) (entries : List PyStr) :
    Except Err (List (Int × PyStr)) := do
  let stripped := entries.map (fun f => pyReplace f (chars ".index"))
  let matched := stripped.filter ckptMatch
  let pairs ← matched.mapM (fun f => do
    let n ← extract_itr_from_modelfile f
    pure (n, osJoin dir f))
  pure (dictOf pairs)

/-- Python f.startswith('_') or f.startswith('.'). -/
def startsReserved (f : PyStr) : Bool := f.take 1 = chars "_" ∨ f.take 1 = chars "."

/-- Python a.startswith('--'). -/
def looksLikeFlagArg (a : PyStr) : Bool := (chars "--").isPrefixOf a

-- experiment_tools.py, line 92-93.
def listExperimentFolders (children : List PyStr) : List PyStr :=
  children.filter (fun f => !startsReserved f)

-- experiment_tools.py, line 95-104.  `int(sorted(folders, key=int)[-1])` is
-- the maximum of the parsed values; computing the sort keys applies int() to
-- every name, so any non-numeric name raises ValueError (badFolderName).
def selectFolderNumber (folders : List PyStr) (resume : Bool) : Except Err Int :=
  if folders.isEmpty then
    if resume then .error .nothingToResume else .ok 1
  else if folders.all (fun f => (pyIntParse f).isSome) then
    let ns := folders.filterMap pyIntParse
    let m := listMax ns
    .ok (if resume then m else m + 1)
  else .error .badFolderName

/-- The machine-visible state init_checkpoint touches: the checkpoint root's
existence/kind and its child listing, the listing and flags.json contents of
each run folder (keyed by the child name under the root), sys.argv[1:], and
the global flag registry FLAGS.__flags. -/
structure World where
  rootExists : Bool
  rootIsDir : Bool
  children : List PyStr
  folderEntries : List (PyStr × List PyStr)
  flagFiles : List (PyStr × FlagSet)
  argv : List PyStr
  registry : FlagSet
deriving DecidableEq

-- experiment_tools.py, line 211-223.  parseKnown is FLAGS._parse_flags
-- (external collaborator, forge/flags.py is not under src): it parses
-- recognized flags from argv into the registry and returns the passthrough
-- remainder.  The function then writes the remainder back to sys.argv and
-- re-applies the pre-call registry values over whatever was parsed
-- (f.__flags.update(old_flags)), returning the live registry dict.
def parse_flags (parseKnown : FlagSet → List PyStr → FlagSet × List PyStr)
    (w : World) : FlagSet × World :=
  let old_flags := w.registry
  let pr := parseKnown w.registry w.argv
  let merged := dictUpdate pr.1 old_flags
  (merged, { w with registry := merged, argv := pr.2 })

-- experiment_tools.py, line 251-254.
def assert_all_flags_parsed_fails (argv : List PyStr) : Bool :=
  argv.any looksLikeFlagArg

/-- The flag set produced by steps 4-5 of init_checkpoint (load config
modules, then parse_flags) as a function of the pre-call world; the run
folder created in between does not affect the registry or argv. -/
def freshFlags (loadEff : FlagSet → FlagSet)
    (parseKnown : FlagSet → List PyStr → FlagSet × List PyStr) (w : World) : FlagSet :=
  (parse_flags parseKnown { w with registry := loadEff w.registry }).1

-- experiment_tools.py, line 91-146: everything after the root
-- existence/directory checks.
def initAfterRoot (loadEff : FlagSet → FlagSet)
    (parseKnown : FlagSet → List PyStr → FlagSet × List PyStr)
    (gitHash : Option PyStr) (checkpoint_dir data_config model_config : PyStr)
    (resume : Bool) (w : World) : Except Err (PyStr × Option PyStr) × World :=
  match selectFolderNumber (listExperimentFolders w.children) resume with
  | .error e => (.error e, w)
  | .ok sel =>
    let selName := intToStr sel
    let expPath := osJoin checkpoint_dir selName
    -- line 107-108: os.mkdir(experiment_folder) when not resuming
    let w1 := if resume then w else
      { w with children := w.children ++ [selName],
               folderEntries := dictInsert w.folderEntries selName [] }
    -- line 115: _load_flags(model_config, data_config) registers flags
    let w2 := { w1 with registry := loadEff w1.registry }
    -- line 116: flags = parse_flags()
    let pr := parse_flags parseKnown w2
    let flags := pr.1
    let w3 := pr.2
    -- line 117: assert_all_flags_parsed()
    if assert_all_flags_parsed_fails w3.argv then (.error .unparsedFlags, w3)
    else if resume then
      -- line 122: restored_flags = json_load(flag_path)
      match dictLookup w3.flagFiles selName with
      | none => (.error .missingFlagFile, w3)
      | some restored =>
        -- line 123-124: flags.update(restored_flags); _restore_flags(flags)
        let merged := dictUpdate flags restored
        let w4 := { w3 with registry := merged }
        -- line 125-127: model_files = find_model_files(experiment_folder)
        let entries := (dictLookup w4.folderEntries selName).getD []
        match find_model_files expPath entries with
        | .error e => (.error e, w4)
        | .ok mf =>
          let ck := if mf.isEmpty then none else dictLookup mf (listMax (keysOf mf))
          (.ok (expPath, ck), w4)
    else
      -- line 131-135: flags['git_commit'] = get_git_revision_hash(), with
      -- subprocess.CalledProcessError swallowed.  flags aliases the live
      -- registry dict, so the assignment also mutates the registry.
      let flags2 := match gitHash with
        | some h => dictUpdate flags [(chars "git_commit", h)]
        | none => flags
      -- line 138: json_store(flag_path, flags)
      let w4 := { w3 with registry := flags2,
                          flagFiles := dictInsert w3.flagFiles selName flags2 }
      -- line 141-144: copy model_config then data_config into the folder
      -- (json_store already created flags.json there)
      let newEntries := ((dictLookup w4.folderEntries selName).getD [])
        ++ [chars "flags.json", baseName model_config, baseName data_config]
      let w5 := { w4 with folderEntries := dictInsert w4.folderEntries selName newEntries }
      (.ok (expPath, none), w5)

-- experiment_tools.py, line 54-146.
/-- init_checkpoint(checkpoint_dir, data_config, model_config, resume),
returning (result-or-exception, world after the call). -/
def init_checkpoint (loadEff : FlagSet → FlagSet)
    (parseKnown : FlagSet → List PyStr → FlagSet × List PyStr)
    (gitHash : Option PyStr) (checkpoint_dir data_config model_config : PyStr)
    (resume : Bool) (w : World) : Except Err (PyStr × Option PyStr) × World :=
  -- line 81-89: root existence / directory checks, makedirs when absent
  if w.rootExists then
    if w.rootIsDir then
      initAfterRoot loadEff parseKnown gitHash checkpoint_dir data_config model_config resume w
    else (.error .rootNotDir, w)
  else if resume then (.error .resumeRootMissing, w)
  else
    initAfterRoot loadEff parseKnown gitHash checkpoint_dir data_config model_config resume
      { w with rootExists := true, rootIsDir := true, children := [] }

/-- Value of a little-endian digit list. -/
def valLE : List Char → Nat
  | [] => 0
  | c :: r => digitVal c + 10 * valLE r

/-- The canonical run-folder names "1" .. "k". -/
def canonicalNames (k : Nat) : List PyStr :=
  (List.range k).map (fun i : Nat => intToStr ((i : Int) + 1))

/-- Identity behaviour of the external FLAGS._parse_flags: recognizes no
flag, passes every argument through. -/
def idPK : FlagSet → List PyStr → FlagSet × List PyStr := fun r a => (r, a)

/-- A parse behaviour that overwrites the whole registry from argv. -/
def overwritePK : FlagSet → List PyStr → FlagSet × List PyStr :=
  fun _ a => ([(chars "lr", chars "77"), (chars "bs", chars "64")], a)

/-- A root holding one prior run folder "1" with one checkpoint at
iteration 3 and a stored flag file. -/
def wOne : World where
  rootExists := true
  rootIsDir := true
  children := [chars "1"]
  folderEntries := [(chars "1", [chars "m.ckpt-3", chars "m.ckpt-3.index", chars "flags.json"])]
  flagFiles := [(chars "1", [(chars "lr", chars "01")])]
  argv := []
  registry := [(chars "lr", chars "05"), (chars "bs", chars "32")]

/-- The world after resuming from wOne: only the registry changed, to the
parsed flags overridden by the restored flag file. -/
def wOneAfterResume : World :=
  { wOne with registry := [(chars "lr", chars "01"), (chars "bs", chars "32")] }

/-- The world after a fresh (non-resuming) run on wOne with git hash
"abc12": folder "2" created and populated, registry and flag file extended
with git_commit. -/
def wOneAfterFresh : World :=
  { wOne with
    children := [chars "1", chars "2"],
    folderEntries := [(chars "1", [chars "m.ckpt-3", chars "m.ckpt-3.index", chars "flags.json"]),
                      (chars "2", [chars "flags.json", chars "m.py", chars "d.py"])],
    flagFiles := [(chars "1", [(chars "lr", chars "01")]),
                  (chars "2", [(chars "lr", chars "05"), (chars "bs", chars "32"),
                               (chars "git_commit", chars "abc12")])],
    registry := [(chars "lr", chars "05"), (chars "bs", chars "32"),
                 (chars "git_commit", chars "abc12")] }

/-- A nonexistent checkpoint root. -/
def wMissing : World where
  rootExists := false
  rootIsDir := false
  children := []
  folderEntries := []
  flagFiles := []
  argv := []
  registry := []

/-- An empty, existing root with one unrecognized --flag on the command
line. -/
def wBad : World where
  rootExists := true
  rootIsDir := true
  children := []
  folderEntries := []
  flagFiles := []
  argv := [chars "--bogus"]
  registry := []

/-- Modelled from the claim text of C8: the text between the last dash in
the path and the first following dot (when no dash occurs, everything
before the first dot, matching the generalized reading of split). -/
def lastDashSegment (p : PyStr) : PyStr :=
  (afterLastChar '-' p).takeWhile (fun x => x ≠ '.')

-- ======================================================================
-- Lemmas about the dictionary model
-- ======================================================================

theorem dictLookup_append {α β : Type} [DecidableEq α] (l₁ l₂ : List (α × β)) (k : α) :
    dictLookup (l₁ ++ l₂) k =
      match dictLookup l₁ k with
      | some v => some v
      | none => dictLookup l₂ k := by
  induction l₁ with
  | nil => simp [dictLookup]
  | cons p r ih =>
    simp only [List.cons_append, dictLookup]
    split
    · rfl
    · exact ih

theorem dictLookup_map_override {α β : Type} [DecidableEq α]
    (old new : List (α × β)) (k : α) :
    dictLookup (old.map (fun p =>
        match dictLookup new p.1 with | some v => (p.1, v) | none => p)) k =
      match dictLookup old k with
      | some b => some ((dictLookup new k).getD b)
      | none => none := by
  induction old with
  | nil => simp [dictLookup]
  | cons p r ih =>
    simp only [List.map_cons, dictLookup]
    rcases hn : dictLookup new p.1 with _ | v
    · simp only [hn]
      by_cases hk : p.1 = k
      · subst hk
        simp [hn]
      · simp [hk, ih]
    · simp only [hn]
      by_cases hk : p.1 = k
      · subst hk
        simp [hn]
      · simp [hk, ih]

theorem dictLookup_filter_fresh {α β : Type} [DecidableEq α]
    (old new : List (α × β)) (k : α) :
    dictLookup (new.filter (fun p => (dictLookup old p.1).isNone)) k =
      if (dictLookup old k).isSome then none else dictLookup new k := by
  induction new with
  | nil => simp [dictLookup]
  | cons p r ih =>
    by_cases hp : (dictLookup old p.1).isNone
    · rw [List.filter_cons_of_pos (by simpa using hp)]
      simp only [dictLookup]
      by_cases hk : p.1 = k
      · subst hk
        simp [Option.isNone_iff_eq_none.mp hp]
      · simp [hk, ih]
    · rw [List.filter_cons_of_neg (by simpa using hp)]
      simp only [dictLookup]
      by_cases hk : p.1 = k
      · subst hk
        rw [ih]
        have hs : (dictLookup old p.1).isSome = true := by
          cases h : dictLookup old p.1
          · simp [h] at hp
          · simp
        simp [hs]
      · simp [hk, ih]

/-- The dict.update law: a key of new gets its new value, any other key keeps
its old value. -/
theorem dictLookup_dictUpdate {α β : Type} [DecidableEq α]
    (old new : List (α × β)) (k : α) :
    dictLookup (dictUpdate old new) k =
      match dictLookup old k with
      | some b => some ((dictLookup new k).getD b)
      | none => dictLookup new k := by
  unfold dictUpdate
  rw [dictLookup_append, dictLookup_map_override, dictLookup_filter_fresh]
  rcases h : dictLookup old k with _ | b
  · simp [h]
  · simp [h]

theorem dictLookup_dictUpdate_of_new {α β : Type} [DecidableEq α]
    (old new : List (α × β)) (k : α) (v : β) (h : dictLookup new k = some v) :
    dictLookup (dictUpdate old new) k = some v := by
  rw [dictLookup_dictUpdate]
  rcases ho : dictLookup old k with _ | b <;> simp [h]

theorem dictLookup_dictUpdate_of_absent {α β : Type} [DecidableEq α]
    (old new : List (α × β)) (k : α) (h : dictLookup new k = none) :
    dictLookup (dictUpdate old new) k = dictLookup old k := by
  rw [dictLookup_dictUpdate]
  rcases ho : dictLookup old k with _ | b <;> simp [h]

theorem dictLookup_mem {α β : Type} [DecidableEq α]
    {d : List (α × β)} {k : α} {v : β} (h : dictLookup d k = some v) : (k, v) ∈ d := by
  induction d with
  | nil => simp [dictLookup] at h
  | cons p r ih =>
    simp only [dictLookup] at h
    by_cases hk : p.1 = k
    · rw [if_pos hk] at h
      have hpv : p = (k, v) := by
        obtain ⟨a, b⟩ := p
        simp only at hk
        injection h with h2
        simp only at h2
        simp [hk, h2]
      rw [hpv]
      exact List.mem_cons_self _ _
    · rw [if_neg hk] at h
      exact List.mem_cons_of_mem _ (ih h)

theorem dictLookup_isSome_of_mem_keys {α β : Type} [DecidableEq α]
    {d : List (α × β)} {k : α} (h : k ∈ keysOf d) : (dictLookup d k).isSome := by
  induction d with
  | nil => simp [keysOf] at h
  | cons p r ih =>
    simp only [keysOf, List.map_cons, List.mem_cons] at h
    simp only [dictLookup]
    by_cases hk : p.1 = k
    · simp [hk]
    · rcases h with h | h
      · exact absurd h.symm hk
      · simpa [hk] using ih h

theorem dictLookup_map_set {α β : Type} [DecidableEq α]
    (d : List (α × β)) (k : α) (v : β) :
    dictLookup (d.map (fun p => if p.1 = k then (k, v) else p)) k =
      if (dictLookup d k).isSome then some v else none := by
  induction d with
  | nil => simp [dictLookup]
  | cons p r ih =>
    simp only [List.map_cons, dictLookup]
    by_cases hk : p.1 = k
    · simp [hk, dictLookup]
    · simp [hk, ih, dictLookup]

theorem dictLookup_dictInsert_self {α β : Type} [DecidableEq α]
    (d : List (α × β)) (k : α) (v : β) :
    dictLookup (dictInsert d k v) k = some v := by
  unfold dictInsert
  split
  · rename_i hany
    rw [dictLookup_map_set]
    have hs : (dictLookup d k).isSome = true := by
      rcases List.any_eq_true.mp hany with ⟨p, hp, he⟩
      have hpk : p.1 = k := by simpa using he
      subst hpk
      exact dictLookup_isSome_of_mem_keys (List.mem_map_of_mem Prod.fst hp)
    simp [hs]
  · rename_i hany
    rw [dictLookup_append]
    have hnone : dictLookup d k = none := by
      cases h : dictLookup d k with
      | none => rfl
      | some v2 =>
        exact absurd (List.any_eq_true.mpr ⟨(k, v2), dictLookup_mem h, by simp⟩) hany
    simp [hnone, dictLookup]

theorem mem_dictInsert {α β : Type} [DecidableEq α]
    {d : List (α × β)} {k : α} {v : β} {q : α × β} (h : q ∈ dictInsert d k v) :
    q ∈ d ∨ q = (k, v) := by
  unfold dictInsert at h
  split at h
  · rcases List.mem_map.mp h with ⟨p, hp, hq⟩
    by_cases hk : p.1 = k
    · right
      rw [if_pos hk] at hq
      exact hq.symm
    · left
      rw [if_neg hk] at hq
      exact hq ▸ hp
  · rcases List.mem_append.mp h with h | h
    · exact Or.inl h
    · right
      simpa using h

theorem mem_dictOf {α β : Type} [DecidableEq α]
    {l : List (α × β)} {q : α × β} (h : q ∈ dictOf l) : q ∈ l := by
  unfold dictOf at h
  suffices H : ∀ (acc : List (α × β)), q ∈ l.foldl (fun d p => dictInsert d p.1 p.2) acc →
      q ∈ acc ∨ q ∈ l by
    rcases H [] h with h | h
    · simp at h
    · exact h
  clear h
  induction l with
  | nil => intro acc h; exact Or.inl h
  | cons p r ih =>
    intro acc h
    rcases ih (dictInsert acc p.1 p.2) h with h | h
    · rcases mem_dictInsert h with h | h
      · exact Or.inl h
      · right
        simp [h]
    · right
      exact List.mem_cons_of_mem _ h

-- ======================================================================
-- Lemmas about listMax
-- ======================================================================

theorem foldl_max_init_le (l : List Int) (a : Int) : a ≤ l.foldl max a := by
  induction l generalizing a with
  | nil => simp
  | cons y t ih => exact le_trans (le_max_left a y) (ih (max a y))

theorem le_foldl_max (l : List Int) (a : Int) {x : Int} (h : x ∈ l) :
    x ≤ l.foldl max a := by
  induction l generalizing a with
  | nil => simp at h
  | cons y t ih =>
    rw [List.foldl_cons]
    rcases List.mem_cons.mp h with h | h
    · subst h
      exact le_trans (le_max_right a x) (foldl_max_init_le t _)
    · exact ih _ h

theorem foldl_max_mem_or (l : List Int) (a : Int) :
    l.foldl max a = a ∨ l.foldl max a ∈ l := by
  induction l generalizing a with
  | nil => exact Or.inl rfl
  | cons y t ih =>
    rw [List.foldl_cons]
    rcases ih (max a y) with h | h
    · rcases max_choice a y with hm | hm
      · rw [h, hm]
        exact Or.inl rfl
      · right
        rw [h, hm]
        simp
    · right
      exact List.mem_cons_of_mem _ h

theorem le_listMax {l : List Int} {x : Int} (h : x ∈ l) : x ≤ listMax l :=
  le_foldl_max l _ h

theorem listMax_mem {l : List Int} (h : l ≠ []) : listMax l ∈ l := by
  rcases l with _ | ⟨y, t⟩
  · exact absurd rfl h
  · rcases foldl_max_mem_or (y :: t) ((y :: t).headD 0) with h2 | h2
    · unfold listMax
      rw [h2]
      simp
    · exact h2

-- ======================================================================
-- Character and decimal-string lemmas
-- ======================================================================

theorem digitChar_isDigit (d : Nat) : (digitChar d).isDigit = true := by
  unfold digitChar
  split <;> decide

theorem digitVal_digitChar {d : Nat} (h : d < 10) : digitVal (digitChar d) = d := by
  interval_cases d <;> decide

theorem digit_not_ws {c : Char} (h : c.isDigit = true) : c.isWhitespace = false := by
  cases hw : c.isWhitespace
  · rfl
  · exfalso
    simp only [Char.isWhitespace, Bool.or_eq_true, decide_eq_true_eq] at hw
    rcases hw with ((h1 | h1) | h1) | h1 <;> subst h1 <;> exact absurd h (by decide)

theorem digit_ne_dash {c : Char} (h : c.isDigit = true) : c ≠ '-' := by
  intro heq
  subst heq
  exact absurd h (by decide)

theorem digit_ne_plus {c : Char} (h : c.isDigit = true) : c ≠ '+' := by
  intro heq
  subst heq
  exact absurd h (by decide)

theorem digit_ne_dot {c : Char} (h : c.isDigit = true) : c ≠ '.' := by
  intro heq
  subst heq
  exact absurd h (by decide)

theorem natToRevAux_all_digit (fuel n : Nat) :
    (natToRevAux fuel n).all Char.isDigit = true := by
  induction fuel generalizing n with
  | zero => rfl
  | succ fuel ih =>
    unfold natToRevAux
    by_cases hn : n = 0
    · simp [hn]
    · simp only [if_neg hn, List.all_cons, Bool.and_eq_true]
      exact ⟨digitChar_isDigit _, ih _⟩

theorem natToRevAux_ne_nil {fuel n : Nat} (hf : fuel ≠ 0) (hn : n ≠ 0) :
    natToRevAux fuel n ≠ [] := by
  rcases fuel with _ | fuel
  · exact absurd rfl hf
  · unfold natToRevAux
    simp [hn]

theorem digitsToNat_append (l : PyStr) (c : Char) :
    digitsToNat (l ++ [c]) = 10 * digitsToNat l + digitVal c := by
  unfold digitsToNat
  rw [List.foldl_append]
  rfl

theorem digitsToNat_reverse (l : List Char) : digitsToNat l.reverse = valLE l := by
  induction l with
  | nil => rfl
  | cons c r ih =>
    rw [List.reverse_cons, digitsToNat_append, ih, valLE]
    omega

theorem valLE_natToRevAux (fuel n : Nat) (h : n ≤ fuel) :
    valLE (natToRevAux fuel n) = n := by
  induction fuel generalizing n with
  | zero =>
    have : n = 0 := Nat.le_zero.mp h
    subst this
    rfl
  | succ fuel ih =>
    unfold natToRevAux
    by_cases hn : n = 0
    · simp [hn, valLE]
    · simp only [if_neg hn, valLE]
      rw [digitVal_digitChar (Nat.mod_lt _ (by decide)), ih (n / 10) (by omega)]
      omega

theorem dropWhile_ws_of_digits {l : List Char} (h : l.all Char.isDigit = true) :
    l.dropWhile Char.isWhitespace = l := by
  cases l with
  | nil => rfl
  | cons c r =>
    simp only [List.all_cons, Bool.and_eq_true] at h
    rw [List.dropWhile_cons, digit_not_ws h.1]
    simp

theorem stripWs_of_digits {l : List Char} (h : l.all Char.isDigit = true) :
    stripWs l = l := by
  unfold stripWs
  rw [dropWhile_ws_of_digits h, dropWhile_ws_of_digits (by rw [List.all_reverse]; exact h),
    List.reverse_reverse]

/-- Python int() on a nonempty all-digit string yields its decimal value. -/
theorem pyIntParse_of_digits {l : List Char} (h1 : l ≠ []) (h2 : l.all Char.isDigit = true) :
    pyIntParse l = some (digitsToNat l : Int) := by
  unfold pyIntParse
  rw [stripWs_of_digits h2]
  rcases l with _ | ⟨c, r⟩
  · exact absurd rfl h1
  · simp only [List.all_cons, Bool.and_eq_true] at h2
    have hdash : ¬([c] = chars "-") := by
      intro heq
      simp only [chars, String.toList] at heq
      exact digit_ne_dash h2.1 (by injection heq)
    have hplus : ¬([c] = chars "+") := by
      intro heq
      simp only [chars, String.toList] at heq
      exact digit_ne_plus h2.1 (by injection heq)
    have ht : List.take 1 (c :: r) = [c] := rfl
    dsimp only
    rw [ht, if_neg (by simp [hdash, hplus] : ¬([c] = chars "-" ∨ [c] = chars "+")),
      if_neg hdash, if_pos ⟨by simp, by simp [h2.1, h2.2]⟩]
    simp

theorem pyIntParse_natToStr (n : Nat) : pyIntParse (natToStr n) = some (n : Int) := by
  by_cases hn : n = 0
  · subst hn
    decide
  · unfold natToStr
    rw [if_neg hn, pyIntParse_of_digits
      (by simpa using natToRevAux_ne_nil hn hn)
      (by rw [List.all_reverse]; exact natToRevAux_all_digit n n)]
    rw [digitsToNat_reverse, valLE_natToRevAux n n le_rfl]

theorem pyIntParse_intToStr_ofNat (n : Nat) :
    pyIntParse (intToStr (n : Int)) = some (n : Int) := by
  unfold intToStr
  rw [if_neg (by omega), Int.natAbs_ofNat, pyIntParse_natToStr]

-- ======================================================================
-- Lemmas about splitChar / takeWhile, connecting the source translation of
-- str.split to the "text after the last separator" reading
-- ======================================================================

theorem splitChar_ne_nil (c : Char) (s : PyStr) : splitChar c s ≠ [] := by
  cases s with
  | nil => simp [splitChar]
  | cons a rest =>
    unfold splitChar
    rcases hr : splitChar c rest with _ | ⟨h, t⟩
    · simp
    · dsimp only
      split <;> simp

theorem takeWhile_append_of_all {p : Char → Bool} {xs : List Char} (ys : List Char)
    (h : xs.all p = true) : (xs ++ ys).takeWhile p = xs ++ ys.takeWhile p := by
  induction xs with
  | nil => rfl
  | cons a r ih =>
    simp only [List.all_cons, Bool.and_eq_true] at h
    simp [List.takeWhile_cons, h.1, ih h.2]

theorem takeWhile_append_of_stop {p : Char → Bool} {xs : List Char} (ys : List Char)
    (h : ¬ xs.all p = true) : (xs ++ ys).takeWhile p = xs.takeWhile p := by
  induction xs with
  | nil => simp at h
  | cons a r ih =>
    by_cases hpa : p a = true
    · simp only [List.all_cons, hpa, Bool.true_and] at h
      simp [List.takeWhile_cons, hpa, ih h]
    · simp [List.takeWhile_cons, hpa]

theorem takeWhile_eq_self_of_all {p : Char → Bool} {l : List Char} (h : l.all p = true) :
    l.takeWhile p = l := by
  have h2 := takeWhile_append_of_all (p := p) [] h
  simpa using h2

theorem all_ne_of_not_mem {c : Char} {l : List Char} (h : c ∉ l) :
    l.all (fun x => decide (x ≠ c)) = true := by
  simp only [List.all_eq_true, decide_eq_true_eq]
  intro x hx heq
  exact h (heq ▸ hx)

theorem not_all_ne_of_mem {c : Char} {l : List Char} (h : c ∈ l) :
    ¬ l.all (fun x => decide (x ≠ c)) = true := by
  intro hall
  have h2 := List.all_eq_true.mp hall c h
  simp at h2

theorem all_digit_ne {l : List Char} (h : l.all Char.isDigit = true) {c : Char}
    (hc : c.isDigit = false) : l.all (fun x => decide (x ≠ c)) = true := by
  simp only [List.all_eq_true, decide_eq_true_eq] at h ⊢
  intro x hx heq
  subst heq
  exact absurd (h _ hx) (by simp [hc])

theorem splitChar_of_not_mem {c : Char} {s : PyStr} (h : c ∉ s) : splitChar c s = [s] := by
  induction s with
  | nil => rfl
  | cons a rest ih =>
    have hrest : c ∉ rest := fun hm => h (List.mem_cons_of_mem _ hm)
    have ha : ¬ a = c := fun he => h (he ▸ List.mem_cons_self a rest)
    unfold splitChar
    rw [ih hrest]
    simp [ha]

theorem two_le_splitChar_length {c : Char} {s : PyStr} (h : c ∈ s) :
    2 ≤ (splitChar c s).length := by
  induction s with
  | nil => simp at h
  | cons a rest ih =>
    unfold splitChar
    rcases hr : splitChar c rest with _ | ⟨hh, tt⟩
    · exact absurd hr (splitChar_ne_nil c rest)
    · by_cases hac : a = c
      · simp [hac]
      · rcases List.mem_cons.mp h with he | hm
        · exact absurd he.symm hac
        · have h2 := ih hm
          rw [hr] at h2
          simp only [if_neg hac]
          simp only [List.length_cons] at h2 ⊢
          omega

theorem splitChar_headD (c : Char) (s : PyStr) :
    (splitChar c s).headD [] = s.takeWhile (fun x => x ≠ c) := by
  induction s with
  | nil => rfl
  | cons a rest ih =>
    unfold splitChar
    rcases hr : splitChar c rest with _ | ⟨hh, tt⟩
    · exact absurd hr (splitChar_ne_nil c rest)
    · rw [hr] at ih
      dsimp only
      by_cases hac : a = c
      · subst hac
        simp [List.takeWhile_cons]
      · rw [if_neg hac]
        simp only [List.headD] at ih ⊢
        simp [List.takeWhile_cons, hac, ih]

theorem splitChar_getLastD (c : Char) (s : PyStr) :
    (splitChar c s).getLastD [] = afterLastChar c s := by
  induction s with
  | nil => rfl
  | cons a rest ih =>
    unfold splitChar
    rcases hr : splitChar c rest with _ | ⟨hh, tt⟩
    · exact absurd hr (splitChar_ne_nil c rest)
    · rw [hr] at ih
      dsimp only
      by_cases hac : a = c
      · subst hac
        rw [if_pos rfl, List.getLastD_cons]
        unfold afterLastChar
        rw [List.reverse_cons]
        by_cases hm : a ∈ rest
        · rw [takeWhile_append_of_stop _ (not_all_ne_of_mem (List.mem_reverse.mpr hm))]
          exact ih
        · rw [takeWhile_append_of_all _ (all_ne_of_not_mem (fun hx => hm (List.mem_reverse.mp hx)))]
          have ht : List.takeWhile (fun x => decide (x ≠ a)) [a] = [] := by
            simp [List.takeWhile_cons]
          rw [ht, List.append_nil, List.reverse_reverse]
          have hs : splitChar a rest = [rest] := splitChar_of_not_mem hm
          rw [hr] at hs
          injection hs with e1 e2
          subst e1
          rw [e2]
          rfl
      · rw [if_neg hac]
        rcases tt with _ | ⟨x, tt2⟩
        · have hnm : c ∉ rest := by
            intro hm
            have h2 := two_le_splitChar_length (s := rest) hm
            rw [hr] at h2
            simp at h2
          have hrr : splitChar c rest = [rest] := splitChar_of_not_mem hnm
          rw [hr] at hrr
          injection hrr with e1 _
          subst e1
          unfold afterLastChar
          rw [List.reverse_cons,
            takeWhile_append_of_all _ (all_ne_of_not_mem (fun hx => hnm (List.mem_reverse.mp hx)))]
          have h1 : List.takeWhile (fun x => decide (x ≠ c)) [a] = [a] := by
            simp [List.takeWhile_cons, hac]
          rw [h1, List.reverse_append, List.reverse_reverse]
          rfl
        · have hm : c ∈ rest := by
            by_contra hnm
            have h2 := splitChar_of_not_mem (s := rest) hnm
            rw [hr] at h2
            injection h2 with _ e2
            exact absurd e2 (by simp)
          unfold afterLastChar
          rw [List.reverse_cons,
            takeWhile_append_of_stop _ (not_all_ne_of_mem (List.mem_reverse.mpr hm))]
          have ih2 : (hh :: x :: tt2).getLastD [] =
              (List.takeWhile (fun y => decide (y ≠ c)) rest.reverse).reverse := ih
          rw [← ih2]
          rw [List.getLastD_cons, List.getLastD_cons, List.getLastD_cons, List.getLastD_cons]

theorem afterLastChar_append_last {c : Char} (x ds : PyStr)
    (hds : ds.all (fun d => decide (d ≠ c)) = true) :
    afterLastChar c (x ++ c :: ds) = ds := by
  unfold afterLastChar
  rw [List.reverse_append, List.reverse_cons, List.append_assoc,
    takeWhile_append_of_all _ (by rw [List.all_reverse]; exact hds)]
  have ht : List.takeWhile (fun y => decide (y ≠ c)) ([c] ++ x.reverse) = [] := by
    simp [List.takeWhile_cons]
  rw [ht, List.append_nil, List.reverse_reverse]

/-- On any string of the shape x ++ '-' :: digits, the extraction rule of
extract_itr_from_modelfile returns the digit value: the digits contain no
dash, so they form the text after the last dash, and no dot, so the split on
dots is trivial. -/
theorem extract_itr_digit_suffix (x ds : PyStr) (h1 : ds ≠ []) (h2 : ds.all Char.isDigit = true) :
    extract_itr_from_modelfile (x ++ '-' :: ds) = .ok (digitsToNat ds : Int) := by
  unfold extract_itr_from_modelfile
  have hgl : (splitChar '-' (x ++ '-' :: ds)).getLastD [] = ds := by
    rw [splitChar_getLastD]
    exact afterLastChar_append_last x ds (all_digit_ne h2 (by decide))
  rw [hgl]
  have hhd : (splitChar '.' ds).headD [] = ds := by
    rw [splitChar_headD]
    exact takeWhile_eq_self_of_all (all_digit_ne h2 (by decide))
  rw [hhd, pyIntParse_of_digits h1 h2]

-- ======================================================================
-- Structure of checkpoint-file names and of find_model_files results
-- ======================================================================

/-- A name accepted by the checkpoint pattern ends in a dash followed by a
nonempty run of digits. -/
theorem ckptMatch_spec {f : PyStr} (h : ckptMatch f = true) :
    ∃ pre ds, f = pre ++ '-' :: ds ∧ ds ≠ [] ∧ ds.all Char.isDigit = true := by
  unfold ckptMatch at h
  simp only [Bool.and_eq_true] at h
  obtain ⟨⟨h1, hpre⟩, _⟩ := h
  set rev := f.reverse with hrev
  set dsm := rev.takeWhile Char.isDigit with hds
  have hne : dsm ≠ [] := by
    simpa [List.isEmpty_iff] using h1
  have hsplit : dsm ++ rev.dropWhile Char.isDigit = rev := by
    rw [hds]
    exact List.takeWhile_append_dropWhile _ _
  have hdrop : rev.drop dsm.length = rev.dropWhile Char.isDigit := by
    conv_lhs => rw [← hsplit]
    exact List.drop_left _ _
  rw [hdrop] at hpre
  obtain ⟨t, ht⟩ := List.isPrefixOf_iff_prefix.mp hpre
  refine ⟨('t' :: 'p' :: 'k' :: 'c' :: t).reverse, dsm.reverse, ?_, ?_, ?_⟩
  · have hf : f = rev.reverse := (List.reverse_reverse f).symm
    rw [hf, ← hsplit, ← ht]
    have hch : chars "-tpkc" ++ t = '-' :: ('t' :: 'p' :: 'k' :: 'c' :: t) := rfl
    rw [hch, List.reverse_append, List.reverse_cons, List.append_assoc]
    rfl
  · simpa using hne
  · rw [List.all_reverse, hds]
    exact List.all_takeWhile

/-- Joining a directory onto a matched name does not change the extracted
iteration number: the digit suffix stays the text after the last dash. -/
theorem extract_osJoin {f : PyStr} (dir : PyStr) (h : ckptMatch f = true) :
    extract_itr_from_modelfile (osJoin dir f) = extract_itr_from_modelfile f := by
  obtain ⟨pre, ds, hf, hne, hdig⟩ := ckptMatch_spec h
  subst hf
  unfold osJoin
  split
  · rfl
  · split
    · rw [← List.append_assoc, extract_itr_digit_suffix _ _ hne hdig,
        extract_itr_digit_suffix _ _ hne hdig]
    · have hx : dir ++ '/' :: (pre ++ '-' :: ds) = (dir ++ '/' :: pre) ++ '-' :: ds := by
        simp
      rw [hx, extract_itr_digit_suffix _ _ hne hdig, extract_itr_digit_suffix _ _ hne hdig]

theorem mapM_ok_mem {α β : Type} {g : α → Except Err β} :
    ∀ {l : List α} {out : List β}, l.mapM g = .ok out → ∀ y ∈ out, ∃ x ∈ l, g x = .ok y := by
  intro l
  induction l with
  | nil =>
    intro out h y hy
    simp only [List.mapM_nil, pure, Except.pure, Except.ok.injEq] at h
    subst h
    simp at hy
  | cons a r ih =>
    intro out h y hy
    rw [List.mapM_cons] at h
    cases hfa : g a with
    | error e =>
      rw [hfa] at h
      simp [Bind.bind, Except.bind] at h
    | ok b =>
      rw [hfa] at h
      cases hmr : r.mapM g with
      | error e =>
        rw [hmr] at h
        simp [Bind.bind, Except.bind] at h
      | ok bs =>
        rw [hmr] at h
        simp only [Bind.bind, Except.bind, pure, Except.pure, Except.ok.injEq] at h
        subst h
        rcases List.mem_cons.mp hy with hy | hy
        · refine ⟨a, List.mem_cons_self _ _, ?_⟩
          rw [hfa, hy]
        · obtain ⟨x2, hx2, hgx2⟩ := ih hmr y hy
          exact ⟨x2, List.mem_cons_of_mem _ hx2, hgx2⟩

/-- Every entry of a find_model_files result comes from a folder entry: its
path is the folder-joined, ".index"-stripped name, its key is the iteration
number extracted from that stripped name, and the stripped name matches the
checkpoint pattern. -/
theorem find_model_files_shape {dir : PyStr} {entries : List PyStr} {mf : List (Int × PyStr)}
    (h : find_model_files dir entries = .ok mf) :
    ∀ kp ∈ mf, ∃ f ∈ entries,
      ckptMatch (pyReplace f (chars ".index")) = true ∧
      extract_itr_from_modelfile (pyReplace f (chars ".index")) = .ok kp.1 ∧
      kp.2 = osJoin dir (pyReplace f (chars ".index")) := by
  intro kp hkp
  unfold find_model_files at h
  dsimp only at h
  cases hm : ((entries.map (fun f => pyReplace f (chars ".index"))).filter ckptMatch).mapM
      (fun f => do
        let n ← extract_itr_from_modelfile f
        pure (n, osJoin dir f)) with
  | error e =>
    rw [hm] at h
    simp [Bind.bind, Except.bind] at h
  | ok pairs =>
    rw [hm] at h
    simp only [Bind.bind, Except.bind, pure, Except.pure, Except.ok.injEq] at h
    subst h
    have hmem : kp ∈ pairs := mem_dictOf hkp
    obtain ⟨gstr, hgstr, hgok⟩ := mapM_ok_mem hm kp hmem
    rw [List.mem_filter] at hgstr
    obtain ⟨hgmap, hgmatch⟩ := hgstr
    obtain ⟨f, hf, hfg⟩ := List.mem_map.mp hgmap
    subst hfg
    cases hex : extract_itr_from_modelfile (pyReplace f (chars ".index")) with
    | error e =>
      rw [hex] at hgok
      simp [Bind.bind, Except.bind] at hgok
    | ok n =>
      rw [hex] at hgok
      simp only [Bind.bind, Except.bind, pure, Except.pure, Except.ok.injEq] at hgok
      subst hgok
      exact ⟨f, hf, hgmatch, hex, rfl⟩

-- ======================================================================
-- Folder-number selection on a canonical root {1, ..., k}
-- ======================================================================

/-- On a root whose (filtered) children are exactly the names "1" .. "k" in
any listing order, selection yields k+1 when starting fresh and k when
resuming (the latter provided k is at least 1). -/
theorem selectFolderNumber_canonical {F : List PyStr} {k : Nat}
    (h : F.Perm (canonicalNames k)) :
    (selectFolderNumber F false = .ok ((k : Int) + 1)) ∧
    (1 ≤ k → selectFolderNumber F true = .ok (k : Int)) := by
  have hpoint : ∀ i : Nat, pyIntParse (intToStr ((i : Int) + 1)) = some ((i : Int) + 1) := by
    intro i
    have hcast : ((i : Int) + 1) = ((i + 1 : Nat) : Int) := by push_cast; ring
    rw [hcast, pyIntParse_intToStr_ofNat]
  rcases Nat.eq_zero_or_pos k with hk | hk
  · subst hk
    have hF : F = [] := List.perm_nil.mp (by simpa [canonicalNames] using h)
    subst hF
    constructor
    · simp [selectFolderNumber]
    · intro h1
      omega
  · have hFne : F ≠ [] := by
      intro he
      have hlen := h.length_eq
      rw [he] at hlen
      simp [canonicalNames] at hlen
      omega
    have hall : F.all (fun f => (pyIntParse f).isSome) = true := by
      rw [List.all_eq_true]
      intro f hf
      have hmm := h.mem_iff.mp hf
      obtain ⟨i, hi, hfi⟩ := List.mem_map.mp hmm
      rw [← hfi, hpoint i]
      rfl
    have hfm : List.filterMap pyIntParse (canonicalNames k)
        = (List.range k).map (fun i : Nat => ((i : Int) + 1)) := by
      unfold canonicalNames
      rw [List.filterMap_map]
      have hfun : (pyIntParse ∘ fun i : Nat => intToStr ((i : Int) + 1))
          = (some ∘ fun i : Nat => ((i : Int) + 1)) := by
        funext i
        exact hpoint i
      rw [hfun, List.filterMap_eq_map]
    have hperm2 : (F.filterMap pyIntParse).Perm
        ((List.range k).map (fun i : Nat => ((i : Int) + 1))) := by
      have h2 := List.Perm.filterMap pyIntParse h
      rwa [hfm] at h2
    have hnsne : F.filterMap pyIntParse ≠ [] := by
      intro he
      have hlen := hperm2.length_eq
      rw [he] at hlen
      simp at hlen
      omega
    have hmax : listMax (F.filterMap pyIntParse) = (k : Int) := by
      have hin : (k : Int) ∈ F.filterMap pyIntParse := by
        rw [hperm2.mem_iff]
        refine List.mem_map.mpr ⟨k - 1, List.mem_range.mpr (by omega), by omega⟩
      have hle : listMax (F.filterMap pyIntParse) ≤ (k : Int) := by
        have hm2 := listMax_mem hnsne
        rw [hperm2.mem_iff] at hm2
        obtain ⟨i, hi, he⟩ := List.mem_map.mp hm2
        have hik := List.mem_range.mp hi
        omega
      have hge : (k : Int) ≤ listMax (F.filterMap pyIntParse) := le_listMax hin
      omega
    have hnotempty : ¬ (F.isEmpty = true) := fun he => hFne (List.isEmpty_iff.mp he)
    constructor
    · unfold selectFolderNumber
      rw [if_neg hnotempty, if_pos hall]
      dsimp only
      rw [hmax]
      rfl
    · intro _
      unfold selectFolderNumber
      rw [if_neg hnotempty, if_pos hall]
      dsimp only
      rw [hmax]
      rfl

-- ======================================================================
-- Pipeline lemmas for init_checkpoint
-- ======================================================================

theorem init_checkpoint_root_ok {w : World} (hex : w.rootExists = true)
    (hdir : w.rootIsDir = true) (lf : FlagSet → FlagSet)
    (pk : FlagSet → List PyStr → FlagSet × List PyStr) (git : Option PyStr)
    (root dcfg mcfg : PyStr) (resume : Bool) :
    init_checkpoint lf pk git root dcfg mcfg resume w =
      initAfterRoot lf pk git root dcfg mcfg resume w := by
  unfold init_checkpoint
  simp [hex, hdir]

/-- Effect of the whole call on the root's child listing: the new run-folder
name is appended exactly when a folder number was selected without resuming
(os.mkdir at line 108 runs before any later failure point). -/
theorem initAfterRoot_children (lf : FlagSet → FlagSet)
    (pk : FlagSet → List PyStr → FlagSet × List PyStr) (git : Option PyStr)
    (root dcfg mcfg : PyStr) (resume : Bool) (w : World) :
    ((initAfterRoot lf pk git root dcfg mcfg resume w).2).children =
      match selectFolderNumber (listExperimentFolders w.children) resume with
      | .error _ => w.children
      | .ok sel => if resume then w.children else w.children ++ [intToStr sel] := by
  unfold initAfterRoot
  cases hsel : selectFolderNumber (listExperimentFolders w.children) resume with
  | error e => rfl
  | ok sel =>
    cases resume with
    | true =>
      dsimp only
      repeat' split
      all_goals first | rfl | simp_all
    | false =>
      dsimp only
      repeat' split
      all_goals first | rfl | simp_all

/-- A resuming call never touches folder listings or flag files. -/
theorem initAfterRoot_resume_fs (lf : FlagSet → FlagSet)
    (pk : FlagSet → List PyStr → FlagSet × List PyStr) (git : Option PyStr)
    (root dcfg mcfg : PyStr) (w : World) :
    ((initAfterRoot lf pk git root dcfg mcfg true w).2).folderEntries = w.folderEntries ∧
    ((initAfterRoot lf pk git root dcfg mcfg true w).2).flagFiles = w.flagFiles := by
  unfold initAfterRoot
  cases hsel : selectFolderNumber (listExperimentFolders w.children) true with
  | error e => exact ⟨rfl, rfl⟩
  | ok sel =>
    dsimp only
    constructor
    all_goals repeat' split
    all_goals first | rfl | simp_all

theorem mapM_error_mem {α β : Type} {g : α → Except Err β} :
    ∀ {l : List α} {e : Err}, l.mapM g = .error e → ∃ x ∈ l, g x = .error e := by
  intro l
  induction l with
  | nil =>
    intro e h
    rw [List.mapM_nil] at h
    have h2 : (Except.ok ([] : List β) : Except Err (List β)) = Except.error e := by
      simpa [pure, Except.pure] using h
    cases h2
  | cons a r ih =>
    intro e h
    rw [List.mapM_cons] at h
    cases hfa : g a with
    | error e2 =>
      rw [hfa] at h
      simp only [Bind.bind, Except.bind, Except.error.injEq] at h
      subst h
      exact ⟨a, List.mem_cons_self _ _, hfa⟩
    | ok b =>
      rw [hfa] at h
      cases hmr : r.mapM g with
      | error e2 =>
        rw [hmr] at h
        simp only [Bind.bind, Except.bind, Except.error.injEq] at h
        subst h
        obtain ⟨x, hx, hgx⟩ := ih hmr
        exact ⟨x, List.mem_cons_of_mem _ hx, hgx⟩
      | ok bs =>
        rw [hmr] at h
        simp [Bind.bind, Except.bind, pure, Except.pure] at h

theorem extract_itr_error {p : PyStr} {e : Err}
    (h : extract_itr_from_modelfile p = .error e) : e = .extractParse := by
  unfold extract_itr_from_modelfile at h
  cases hp : pyIntParse ((splitChar '.' ((splitChar '-' p).getLastD [])).headD []) with
  | none =>
    rw [hp] at h
    injection h with h
    exact h.symm
  | some n =>
    rw [hp] at h
    simp at h

/-- The only exception find_model_files itself can raise is the int() parse
error inside extract_itr_from_modelfile. -/
theorem find_model_files_error {d : PyStr} {es : List PyStr} {e : Err}
    (h : find_model_files d es = .error e) : e = .extractParse := by
  unfold find_model_files at h
  dsimp only at h
  cases hm : ((es.map (fun f => pyReplace f (chars ".index"))).filter ckptMatch).mapM
      (fun f => do
        let n ← extract_itr_from_modelfile f
        pure (n, osJoin d f)) with
  | error e2 =>
    rw [hm] at h
    simp only [Bind.bind, Except.bind, Except.error.injEq] at h
    subst h
    obtain ⟨f, _, hgf⟩ := mapM_error_mem hm
    cases hex : extract_itr_from_modelfile f with
    | error e3 =>
      rw [hex] at hgf
      simp only [Bind.bind, Except.bind, Except.error.injEq] at hgf
      rw [← hgf]
      exact extract_itr_error hex
    | ok n =>
      rw [hex] at hgf
      simp [Bind.bind, Except.bind, pure, Except.pure] at hgf
  | ok pairs =>
    rw [hm] at h
    simp [Bind.bind, Except.bind, pure, Except.pure] at h

/-- Inversion of a successful resuming call (after the root checks): the
folder with the maximal number was selected, its flag file was read, its
listing was scanned, and the final registry is the parsed flags overlaid
with the restored ones; no filesystem component changed. -/
theorem initAfterRoot_resume_ok {lf : FlagSet → FlagSet}
    {pk : FlagSet → List PyStr → FlagSet × List PyStr} {git : Option PyStr}
    {root dcfg mcfg : PyStr} {w : World} {p : PyStr} {ck : Option PyStr} {w' : World}
    (h : initAfterRoot lf pk git root dcfg mcfg true w = (.ok (p, ck), w')) :
    ∃ sel restored mf,
      selectFolderNumber (listExperimentFolders w.children) true = .ok sel ∧
      dictLookup w.flagFiles (intToStr sel) = some restored ∧
      find_model_files (osJoin root (intToStr sel))
        ((dictLookup w.folderEntries (intToStr sel)).getD []) = .ok mf ∧
      p = osJoin root (intToStr sel) ∧
      ck = (if mf.isEmpty then none else dictLookup mf (listMax (keysOf mf))) ∧
      w'.registry = dictUpdate (freshFlags lf pk w) restored ∧
      w'.children = w.children ∧ w'.folderEntries = w.folderEntries ∧
      w'.flagFiles = w.flagFiles := by
  unfold initAfterRoot at h
  cases hsel : selectFolderNumber (listExperimentFolders w.children) true with
  | error e =>
    rw [hsel] at h
    simp at h
  | ok sel =>
    rw [hsel] at h
    simp only [parse_flags, reduceIte] at h
    split at h
    · simp at h
    · split at h
      · simp at h
      · rename_i restored hrest
        split at h
        · simp at h
        · rename_i mf hmf
          simp only [Prod.mk.injEq, Except.ok.injEq] at h
          obtain ⟨⟨hp, hck⟩, hw⟩ := h
          subst hw
          exact ⟨sel, restored, mf, rfl, hrest, hmf, hp.symm, hck.symm, rfl, rfl, rfl, rfl⟩

/-- Inversion of a successful non-resuming call (after the root checks): a
fresh folder number was selected and appended, the resume checkpoint is
None, and the written flag file and the final registry are both the freshly
parsed flags, with git_commit overlaid when the hash call succeeded. -/
theorem initAfterRoot_fresh_ok {lf : FlagSet → FlagSet}
    {pk : FlagSet → List PyStr → FlagSet × List PyStr} {git : Option PyStr}
    {root dcfg mcfg : PyStr} {w : World} {p : PyStr} {ck : Option PyStr} {w' : World}
    (h : initAfterRoot lf pk git root dcfg mcfg false w = (.ok (p, ck), w')) :
    ∃ sel,
      selectFolderNumber (listExperimentFolders w.children) false = .ok sel ∧
      p = osJoin root (intToStr sel) ∧ ck = none ∧
      w'.registry = (match git with
        | some hsh => dictUpdate (freshFlags lf pk w) [(chars "git_commit", hsh)]
        | none => freshFlags lf pk w) ∧
      w'.flagFiles = dictInsert w.flagFiles (intToStr sel)
        (match git with
         | some hsh => dictUpdate (freshFlags lf pk w) [(chars "git_commit", hsh)]
         | none => freshFlags lf pk w) ∧
      w'.children = w.children ++ [intToStr sel] := by
  unfold initAfterRoot at h
  cases hsel : selectFolderNumber (listExperimentFolders w.children) false with
  | error e =>
    rw [hsel] at h
    simp at h
  | ok sel =>
    rw [hsel] at h
    simp only [parse_flags, Bool.false_eq_true, if_false] at h
    split at h
    · simp at h
    · simp only [Prod.mk.injEq, Except.ok.injEq] at h
      obtain ⟨⟨hp, hck⟩, hw⟩ := h
      subst hw
      refine ⟨sel, rfl, hp.symm, hck.symm, ?_, ?_, rfl⟩
      · cases git <;> rfl
      · cases git <;> rfl

/-- A resuming call that raises a configuration error raises it during folder
selection and leaves the world untouched. -/
theorem initAfterRoot_resume_error {lf : FlagSet → FlagSet}
    {pk : FlagSet → List PyStr → FlagSet × List PyStr} {git : Option PyStr}
    {root dcfg mcfg : PyStr} {w : World} {e : Err} {w' : World}
    (h : initAfterRoot lf pk git root dcfg mcfg true w = (.error e, w'))
    (hcfg : e.isConfigError = true) :
    selectFolderNumber (listExperimentFolders w.children) true = .error e ∧ w' = w := by
  unfold initAfterRoot at h
  cases hsel : selectFolderNumber (listExperimentFolders w.children) true with
  | error e2 =>
    rw [hsel] at h
    simp only [Prod.mk.injEq, Except.error.injEq] at h
    obtain ⟨he, hw⟩ := h
    subst he
    exact ⟨rfl, hw.symm⟩
  | ok sel =>
    rw [hsel] at h
    simp only [parse_flags, reduceIte] at h
    exfalso
    split at h
    · simp only [Prod.mk.injEq, Except.error.injEq] at h
      rw [← h.1] at hcfg
      simp [Err.isConfigError] at hcfg
    · split at h
      · simp only [Prod.mk.injEq, Except.error.injEq] at h
        rw [← h.1] at hcfg
        simp [Err.isConfigError] at hcfg
      · split at h
        · rename_i e3 hfind
          simp only [Prod.mk.injEq, Except.error.injEq] at h
          rw [← h.1, find_model_files_error hfind] at hcfg
          simp [Err.isConfigError] at hcfg
        · simp at h

/-- A fresh (non-resuming) call that raises a configuration error raises it
during folder selection and leaves the world untouched. -/
theorem initAfterRoot_fresh_error {lf : FlagSet → FlagSet}
    {pk : FlagSet → List PyStr → FlagSet × List PyStr} {git : Option PyStr}
    {root dcfg mcfg : PyStr} {w : World} {e : Err} {w' : World}
    (h : initAfterRoot lf pk git root dcfg mcfg false w = (.error e, w'))
    (hcfg : e.isConfigError = true) :
    selectFolderNumber (listExperimentFolders w.children) false = .error e ∧ w' = w := by
  unfold initAfterRoot at h
  cases hsel : selectFolderNumber (listExperimentFolders w.children) false with
  | error e2 =>
    rw [hsel] at h
    simp only [Prod.mk.injEq, Except.error.injEq] at h
    obtain ⟨he, hw⟩ := h
    subst he
    exact ⟨rfl, hw.symm⟩
  | ok sel =>
    rw [hsel] at h
    simp only [parse_flags, Bool.false_eq_true, if_false] at h
    exfalso
    split at h
    · simp only [Prod.mk.injEq, Except.error.injEq] at h
      rw [← h.1] at hcfg
      simp [Err.isConfigError] at hcfg
    · simp at h

/-- A configuration error is raised before any mutation: when
init_checkpoint fails with one, the world is returned unchanged. -/
theorem init_config_error_frame {lf : FlagSet → FlagSet}
    {pk : FlagSet → List PyStr → FlagSet × List PyStr} {git : Option PyStr}
    {root dcfg mcfg : PyStr} {resume : Bool} {w : World} {e : Err} {w' : World}
    (h : init_checkpoint lf pk git root dcfg mcfg resume w = (.error e, w'))
    (hcfg : e.isConfigError = true) : w' = w := by
  unfold init_checkpoint at h
  by_cases hex : w.rootExists = true
  · simp only [hex, reduceIte] at h
    by_cases hdir : w.rootIsDir = true
    · simp only [hdir, reduceIte] at h
      cases resume with
      | true => exact (initAfterRoot_resume_error h hcfg).2
      | false => exact (initAfterRoot_fresh_error h hcfg).2
    · have hdir2 : w.rootIsDir = false := by
        cases hdv : w.rootIsDir
        · rfl
        · exact absurd hdv hdir
      simp only [hdir2, Bool.false_eq_true, if_false] at h
      simp only [Prod.mk.injEq, Except.error.injEq] at h
      exact h.2.symm
  · have hex2 : w.rootExists = false := by
      cases hev : w.rootExists
      · rfl
      · exact absurd hev hex
    simp only [hex2, Bool.false_eq_true, if_false] at h
    cases resume with
    | true =>
      simp only [reduceIte] at h
      simp only [Prod.mk.injEq, Except.error.injEq] at h
      exact h.2.symm
    | false =>
      simp only [Bool.false_eq_true, if_false] at h
      exfalso
      have hsel := (initAfterRoot_fresh_error h hcfg).1
      simp [listExperimentFolders, selectFolderNumber] at hsel

/-- Whether the git hash call succeeded never influences the returned value
or the raised exception of a fresh call, only the stored flag contents. -/
theorem init_fresh_git_result (lf : FlagSet → FlagSet)
    (pk : FlagSet → List PyStr → FlagSet × List PyStr)
    (root dcfg mcfg : PyStr) (w : World) (g : Option PyStr) :
    (init_checkpoint lf pk g root dcfg mcfg false w).1 =
    (init_checkpoint lf pk none root dcfg mcfg false w).1 := by
  unfold init_checkpoint initAfterRoot
  dsimp only
  simp only [parse_flags, Bool.false_eq_true, if_false]
  repeat' split
  all_goals rfl

/-- On a root with no numerically-named run folders, resuming selection
raises one of the two selection-phase ValueErrors. -/
theorem selectFolderNumber_resume_noNumeric {F : List PyStr}
    (hall : F.all (fun f => (pyIntParse f).isNone) = true) :
    selectFolderNumber F true = .error .nothingToResume ∨
    selectFolderNumber F true = .error .badFolderName := by
  unfold selectFolderNumber
  by_cases hF : F.isEmpty = true
  · rw [if_pos hF]
    simp
  · rw [if_neg hF]
    have hfalse : F.all (fun f => (pyIntParse f).isSome) = false := by
      rcases F with _ | ⟨f0, F2⟩
      · simp at hF
      · have h0 : (pyIntParse f0).isNone = true := List.all_eq_true.mp hall f0 (by simp)
        have h1 : (pyIntParse f0).isSome = false := by
          cases hp : pyIntParse f0
          · simp
          · rw [hp] at h0
            simp at h0
        simp [List.all_cons, h1]
    rw [if_neg (by simp [hfalse])]
    right
    rfl

-- ======================================================================
-- Case analysis of small permutations (for the fixed-folder claims)
-- ======================================================================

theorem perm2_cases {α : Type} [DecidableEq α] {m : List α} {u v : α}
    (hm : m.Perm [u, v]) (huv : u ≠ v) : m = [u, v] ∨ m = [v, u] := by
  obtain ⟨s, t, rfl⟩ := List.length_eq_two.mp (by simpa using hm.length_eq)
  have hs : s = u ∨ s = v := by
    have hmem := hm.mem_iff.mp (List.mem_cons_self s [t])
    simpa using hmem
  rcases hs with rfl | rfl
  · left
    have h2 := hm.cons_inv
    rw [List.perm_singleton] at h2
    rw [h2]
  · right
    rw [List.cons_perm_iff_perm_erase] at hm
    obtain ⟨_, h2⟩ := hm
    have he : [u, s].erase s = [u] := by
      simp [List.erase_cons, huv]
    rw [he, List.perm_singleton] at h2
    rw [h2]

theorem perm3_cases {α : Type} [DecidableEq α] {l : List α} {a b c : α}
    (h : l.Perm [a, b, c]) (hab : a ≠ b) (hac : a ≠ c) (hbc : b ≠ c) :
    l = [a, b, c] ∨ l = [a, c, b] ∨ l = [b, a, c] ∨ l = [b, c, a] ∨
    l = [c, a, b] ∨ l = [c, b, a] := by
  obtain ⟨x, y, z, rfl⟩ := List.length_eq_three.mp (by simpa using h.length_eq)
  have hx : x = a ∨ x = b ∨ x = c := by
    have hmem := h.mem_iff.mp (List.mem_cons_self x [y, z])
    simpa using hmem
  rcases hx with rfl | rfl | rfl
  · have h2 := h.cons_inv
    obtain h3 | h3 := perm2_cases h2 hbc
    · left
      rw [h3]
    · right; left
      rw [h3]
  · rw [List.cons_perm_iff_perm_erase] at h
    obtain ⟨_, h2⟩ := h
    have he : [a, x, c].erase x = [a, c] := by
      simp [List.erase_cons, hab]
    rw [he] at h2
    obtain h3 | h3 := perm2_cases h2 hac
    · right; right; left
      rw [h3]
    · right; right; right; left
      rw [h3]
  · rw [List.cons_perm_iff_perm_erase] at h
    obtain ⟨_, h2⟩ := h
    have he : [a, b, x].erase x = [a, b] := by
      simp [List.erase_cons, hac, hbc]
    rw [he] at h2
    obtain h3 | h3 := perm2_cases h2 hab
    · right; right; right; right; left
      rw [h3]
    · right; right; right; right; right
      rw [h3]

-- ======================================================================
-- Concrete fixtures used by the witnesses below
-- ======================================================================

/-- A successful init_checkpoint call either went through an existing root
directory unchanged, or (only when not resuming) created the missing root
first and proceeded on an empty listing. -/
theorem init_ok_root {lf : FlagSet → FlagSet}
    {pk : FlagSet → List PyStr → FlagSet × List PyStr} {git : Option PyStr}
    {root dcfg mcfg : PyStr} {resume : Bool} {w : World}
    {r : PyStr × Option PyStr} {w' : World}
    (h : init_checkpoint lf pk git root dcfg mcfg resume w = (.ok r, w')) :
    (w.rootExists = true ∧ w.rootIsDir = true ∧
      initAfterRoot lf pk git root dcfg mcfg resume w = (.ok r, w')) ∨
    (w.rootExists = false ∧ resume = false ∧
      initAfterRoot lf pk git root dcfg mcfg false
        { w with rootExists := true, rootIsDir := true, children := [] } = (.ok r, w')) := by
  unfold init_checkpoint at h
  by_cases hex : w.rootExists = true
  · simp only [hex, reduceIte] at h
    by_cases hdir : w.rootIsDir = true
    · simp only [hdir, reduceIte] at h
      exact Or.inl ⟨hex, hdir, h⟩
    · have hdir2 : w.rootIsDir = false := by
        cases hdv : w.rootIsDir
        · rfl
        · exact absurd hdv hdir
      simp only [hdir2, Bool.false_eq_true, if_false] at h
      simp at h
  · have hex2 : w.rootExists = false := by
      cases hev : w.rootExists
      · rfl
      · exact absurd hev hex
    simp only [hex2, Bool.false_eq_true, if_false] at h
    cases resume with
    | true =>
      simp only [reduceIte] at h
      simp at h
    | false =>
      simp only [Bool.false_eq_true, if_false] at h
      exact Or.inr ⟨hex2, rfl, h⟩

-- ======================================================================
-- The claims
-- ======================================================================

/-- Claim C1: on a root whose non-prefixed children are exactly the
integer-named run folders 1..k, a non-resuming init_checkpoint selects
folder k+1 (1 when k = 0) and creates that directory, a resuming call
selects folder k and creates no directory, and in either case the returned
run folder path is the root joined with the selected number.  The root is
assumed to exist as a directory (it has children), and resuming additionally
assumes at least one run folder exists, as required by the error contract of
C2. -/
theorem claim_C1_folder_allocation (lf : FlagSet → FlagSet)
    (pk : FlagSet → List PyStr → FlagSet × List PyStr) (git : Option PyStr)
    (root dcfg mcfg : PyStr) (w : World) (k : Nat)
    (hex : w.rootExists = true) (hdir : w.rootIsDir = true)
    (hch : (listExperimentFolders w.children).Perm (canonicalNames k)) :
    (selectFolderNumber (listExperimentFolders w.children) false = .ok ((k : Int) + 1)) ∧
    ((init_checkpoint lf pk git root dcfg mcfg false w).2.children
        = w.children ++ [intToStr ((k : Int) + 1)]) ∧
    (∀ p ck w', init_checkpoint lf pk git root dcfg mcfg false w = (.ok (p, ck), w') →
        p = osJoin root (intToStr ((k : Int) + 1))) ∧
    (1 ≤ k →
      (selectFolderNumber (listExperimentFolders w.children) true = .ok (k : Int)) ∧
      ((init_checkpoint lf pk git root dcfg mcfg true w).2.children = w.children) ∧
      ((init_checkpoint lf pk git root dcfg mcfg true w).2.folderEntries = w.folderEntries) ∧
      (∀ p ck w', init_checkpoint lf pk git root dcfg mcfg true w = (.ok (p, ck), w') →
          p = osJoin root (intToStr (k : Int)))) := by
  obtain ⟨hsel0, hsel1⟩ := selectFolderNumber_canonical hch
  refine ⟨hsel0, ?_, ?_, ?_⟩
  · rw [init_checkpoint_root_ok hex hdir, initAfterRoot_children, hsel0]
    simp
  · intro p ck w' hok
    rw [init_checkpoint_root_ok hex hdir] at hok
    obtain ⟨sel, hsel2, hp, _⟩ := initAfterRoot_fresh_ok hok
    rw [hsel0] at hsel2
    injection hsel2 with he
    rw [hp, ← he]
  · intro hk
    refine ⟨hsel1 hk, ?_, ?_, ?_⟩
    · rw [init_checkpoint_root_ok hex hdir, initAfterRoot_children, hsel1 hk]
      simp
    · rw [init_checkpoint_root_ok hex hdir]
      exact (initAfterRoot_resume_fs lf pk git root dcfg mcfg w).1
    · intro p ck w' hok
      rw [init_checkpoint_root_ok hex hdir] at hok
      obtain ⟨sel, restored, mf, hsel2, _, _, hp, _⟩ := initAfterRoot_resume_ok hok
      rw [hsel1 hk] at hsel2
      injection hsel2 with he
      rw [hp, ← he]

/-- Witness for C1 at k = 1: on the concrete one-folder root wOne, the
fresh call appends folder "2" and the resuming call creates nothing. -/
theorem claim_C1_witness :
    (listExperimentFolders wOne.children).Perm (canonicalNames 1) ∧
    ((init_checkpoint id idPK none (chars "root") (chars "d.py") (chars "m.py") false wOne).2.children
        = wOne.children ++ [intToStr (((1 : Nat) : Int) + 1)]) ∧
    ((init_checkpoint id idPK none (chars "root") (chars "d.py") (chars "m.py") true wOne).2.children
        = wOne.children) :=
  ⟨List.Perm.refl _,
   (claim_C1_folder_allocation id idPK none (chars "root") (chars "d.py") (chars "m.py")
      wOne 1 rfl rfl (List.Perm.refl _)).2.1,
   ((claim_C1_folder_allocation id idPK none (chars "root") (chars "d.py") (chars "m.py")
      wOne 1 rfl rfl (List.Perm.refl _)).2.2.2 (by omega)).2.1⟩

/-- Claim C2: a resuming init_checkpoint fails with a configuration
ValueError when the root does not exist, when it exists but is not a
directory, or when it exists but has no numerically-named subfolders
(children prefixed with an underscore or a dot being ignored). -/
theorem claim_C2_resume_config_errors (lf : FlagSet → FlagSet)
    (pk : FlagSet → List PyStr → FlagSet × List PyStr) (git : Option PyStr)
    (root dcfg mcfg : PyStr) (w : World)
    (hcase : w.rootExists = false ∨ w.rootIsDir = false ∨
      (listExperimentFolders w.children).all (fun f => (pyIntParse f).isNone) = true) :
    errIsConfig (init_checkpoint lf pk git root dcfg mcfg true w).1 = true := by
  by_cases hex : w.rootExists = true
  · by_cases hdir : w.rootIsDir = true
    · have hall : (listExperimentFolders w.children).all
          (fun f => (pyIntParse f).isNone) = true := by
        rcases hcase with hc | hc | hc
        · rw [hex] at hc
          simp at hc
        · rw [hdir] at hc
          simp at hc
        · exact hc
      rw [init_checkpoint_root_ok hex hdir]
      unfold initAfterRoot
      rcases selectFolderNumber_resume_noNumeric hall with hs | hs <;> rw [hs] <;> rfl
    · have hdir2 : w.rootIsDir = false := by
        cases hdv : w.rootIsDir
        · rfl
        · exact absurd hdv hdir
      unfold init_checkpoint
      simp only [hex, reduceIte, hdir2, Bool.false_eq_true, if_false]
      rfl
  · have hex2 : w.rootExists = false := by
      cases hev : w.rootExists
      · rfl
      · exact absurd hev hex
    unfold init_checkpoint
    simp only [hex2, Bool.false_eq_true, if_false, reduceIte]
    rfl

/-- Witness for C2 at the concrete nonexistent root wMissing. -/
theorem claim_C2_witness :
    (wMissing.rootExists = false ∨ wMissing.rootIsDir = false ∨
      (listExperimentFolders wMissing.children).all (fun f => (pyIntParse f).isNone) = true) ∧
    errIsConfig (init_checkpoint id idPK none (chars "root") (chars "d.py") (chars "m.py")
      true wMissing).1 = true :=
  ⟨Or.inl rfl,
   claim_C2_resume_config_errors id idPK none (chars "root") (chars "d.py") (chars "m.py")
     wMissing (Or.inl rfl)⟩

/-- Claim C3: on a successful resume, the returned resume checkpoint is the
path the checkpoint index assigns to the maximal embedded iteration number
of the selected folder (None when the folder holds no checkpoint file); the
returned path itself carries that maximal iteration number.  On any
successful non-resuming call the resume checkpoint is None. -/
theorem claim_C3_resume_checkpoint (lf : FlagSet → FlagSet)
    (pk : FlagSet → List PyStr → FlagSet × List PyStr) (git : Option PyStr)
    (root dcfg mcfg : PyStr) (w : World) (p : PyStr) (ck : Option PyStr) (w' : World) :
    (init_checkpoint lf pk git root dcfg mcfg true w = (.ok (p, ck), w') →
      ∃ sel mf, selectFolderNumber (listExperimentFolders w.children) true = .ok sel ∧
        find_model_files (osJoin root (intToStr sel))
          ((dictLookup w.folderEntries (intToStr sel)).getD []) = .ok mf ∧
        (mf = [] → ck = none) ∧
        (mf ≠ [] → ∃ pth, ck = some pth ∧ (listMax (keysOf mf), pth) ∈ mf ∧
          (∀ q ∈ keysOf mf, q ≤ listMax (keysOf mf)) ∧
          extract_itr_from_modelfile pth = .ok (listMax (keysOf mf)))) ∧
    (init_checkpoint lf pk git root dcfg mcfg false w = (.ok (p, ck), w') → ck = none) := by
  constructor
  · intro hok
    rcases init_ok_root hok with ⟨hex, hdir, h⟩ | ⟨_, hres, _⟩
    · obtain ⟨sel, restored, mf, hsel, hrest, hmf, hp, hck, _⟩ := initAfterRoot_resume_ok h
      refine ⟨sel, mf, hsel, hmf, ?_, ?_⟩
      · intro hmfe
        rw [hck, hmfe]
        rfl
      · intro hmfne
        have hkeysne : keysOf mf ≠ [] := by
          intro hkn
          apply hmfne
          cases mf with
          | nil => rfl
          | cons q r => simp [keysOf] at hkn
        have hmaxmem : listMax (keysOf mf) ∈ keysOf mf := listMax_mem hkeysne
        have hsome : (dictLookup mf (listMax (keysOf mf))).isSome :=
          dictLookup_isSome_of_mem_keys hmaxmem
        obtain ⟨pth, hpth⟩ : ∃ pth, dictLookup mf (listMax (keysOf mf)) = some pth := by
          cases hd : dictLookup mf (listMax (keysOf mf)) with
          | none =>
            rw [hd] at hsome
            simp at hsome
          | some q => exact ⟨q, rfl⟩
        have hmem : (listMax (keysOf mf), pth) ∈ mf := dictLookup_mem hpth
        refine ⟨pth, ?_, hmem, fun q hq => le_listMax hq, ?_⟩
        · rw [hck, if_neg (by simp [List.isEmpty_iff, hmfne])]
          exact hpth
        · obtain ⟨f, hf, hmatch, hext, hpform⟩ := find_model_files_shape hmf _ hmem
          dsimp only at hext hpform
          rw [hpform, extract_osJoin _ hmatch]
          exact hext
    · cases hres
  · intro hok
    rcases init_ok_root hok with ⟨hex, hdir, h⟩ | ⟨_, _, h⟩
    · obtain ⟨sel, _, _, hck, _⟩ := initAfterRoot_fresh_ok h
      exact hck
    · obtain ⟨sel, _, _, hck, _⟩ := initAfterRoot_fresh_ok h
      exact hck

/-- Witness for C3 on the concrete root wOne, whose folder "1" holds a
checkpoint at iteration 3. -/
theorem claim_C3_witness :
    ∃ sel mf, selectFolderNumber (listExperimentFolders wOne.children) true = .ok sel ∧
      find_model_files (osJoin (chars "root") (intToStr sel))
        ((dictLookup wOne.folderEntries (intToStr sel)).getD []) = .ok mf ∧
      (mf = [] → (some (chars "root/1/m.ckpt-3") : Option PyStr) = none) ∧
      (mf ≠ [] → ∃ pth, (some (chars "root/1/m.ckpt-3") : Option PyStr) = some pth ∧
        (listMax (keysOf mf), pth) ∈ mf ∧
        (∀ q ∈ keysOf mf, q ≤ listMax (keysOf mf)) ∧
        extract_itr_from_modelfile pth = .ok (listMax (keysOf mf))) :=
  (claim_C3_resume_checkpoint id idPK none (chars "root") (chars "d.py") (chars "m.py")
    wOne (chars "root/1") (some (chars "root/1/m.ckpt-3")) wOneAfterResume).1 rfl

/-- Claim C4: on a successful resume, the flag set pushed into the global
registry is the freshly parsed flags overlaid with the Flag File contents:
keys of the Flag File take their restored values, parsed keys absent from
the Flag File keep their freshly parsed values. -/
theorem claim_C4_flag_merge (lf : FlagSet → FlagSet)
    (pk : FlagSet → List PyStr → FlagSet × List PyStr) (git : Option PyStr)
    (root dcfg mcfg : PyStr) (w : World) (p : PyStr) (ck : Option PyStr) (w' : World)
    (hok : init_checkpoint lf pk git root dcfg mcfg true w = (.ok (p, ck), w')) :
    ∃ sel restored,
      selectFolderNumber (listExperimentFolders w.children) true = .ok sel ∧
      dictLookup w.flagFiles (intToStr sel) = some restored ∧
      w'.registry = dictUpdate (freshFlags lf pk w) restored ∧
      (∀ key v, dictLookup restored key = some v → dictLookup w'.registry key = some v) ∧
      (∀ key, dictLookup restored key = none →
        dictLookup w'.registry key = dictLookup (freshFlags lf pk w) key) := by
  rcases init_ok_root hok with ⟨hex, hdir, h⟩ | ⟨_, hres, _⟩
  · obtain ⟨sel, restored, mf, hsel, hrest, _, _, _, hreg, _⟩ := initAfterRoot_resume_ok h
    refine ⟨sel, restored, hsel, hrest, hreg, ?_, ?_⟩
    · intro key v hv
      rw [hreg]
      exact dictLookup_dictUpdate_of_new _ _ _ _ hv
    · intro key hn
      rw [hreg]
      exact dictLookup_dictUpdate_of_absent _ _ _ hn
  · cases hres

/-- Witness for C4 on the concrete root wOne: key "lr" is restored from the
flag file, key "bs" keeps its parsed value. -/
theorem claim_C4_witness :
    ∃ sel restored,
      selectFolderNumber (listExperimentFolders wOne.children) true = .ok sel ∧
      dictLookup wOne.flagFiles (intToStr sel) = some restored ∧
      wOneAfterResume.registry = dictUpdate (freshFlags id idPK wOne) restored ∧
      (∀ key v, dictLookup restored key = some v →
        dictLookup wOneAfterResume.registry key = some v) ∧
      (∀ key, dictLookup restored key = none →
        dictLookup wOneAfterResume.registry key = dictLookup (freshFlags id idPK wOne) key) :=
  claim_C4_flag_merge id idPK none (chars "root") (chars "d.py") (chars "m.py")
    wOne (chars "root/1") (some (chars "root/1/m.ckpt-3")) wOneAfterResume rfl

/-- Claim C9: the outcome of the git hash call never affects whether a
non-resuming call succeeds or what it returns; on success the flag file of
the selected folder is written, holding exactly the fresh flags when the
hash call failed (the git_commit key simply omitted), and the fresh flags
with git_commit overlaid, mapped to the hash, when it succeeded. -/
theorem claim_C9_git_best_effort (lf : FlagSet → FlagSet)
    (pk : FlagSet → List PyStr → FlagSet × List PyStr) (git : Option PyStr)
    (root dcfg mcfg : PyStr) (w : World) (p : PyStr) (ck : Option PyStr) (w' : World)
    (hok : init_checkpoint lf pk git root dcfg mcfg false w = (.ok (p, ck), w')) :
    (∀ g2 : Option PyStr, (init_checkpoint lf pk g2 root dcfg mcfg false w).1
        = (init_checkpoint lf pk none root dcfg mcfg false w).1) ∧
    ∃ sel stored,
      dictLookup w'.flagFiles (intToStr sel) = some stored ∧
      w'.registry = stored ∧
      (git = none → stored = freshFlags lf pk w) ∧
      (∀ hsh, git = some hsh →
        stored = dictUpdate (freshFlags lf pk w) [(chars "git_commit", hsh)] ∧
        dictLookup stored (chars "git_commit") = some hsh) := by
  refine ⟨fun g2 => init_fresh_git_result lf pk root dcfg mcfg w g2, ?_⟩
  rcases init_ok_root hok with ⟨hex, hdir, h⟩ | ⟨_, _, h⟩ <;>
  · obtain ⟨sel, hsel, hp, hck, hreg, hff, _⟩ := initAfterRoot_fresh_ok h
    refine ⟨sel, _, ?_, hreg, ?_, ?_⟩
    · rw [hff]
      exact dictLookup_dictInsert_self _ _ _
    · intro hg
      subst hg
      rfl
    · intro hsh hg
      subst hg
      refine ⟨rfl, ?_⟩
      exact dictLookup_dictUpdate_of_new _ _ _ _ (by simp [dictLookup])

/-- Witness for C9 on the concrete root wOne with hash "abc12". -/
theorem claim_C9_witness :
    (∀ g2 : Option PyStr,
      (init_checkpoint id idPK g2 (chars "root") (chars "d.py") (chars "m.py") false wOne).1
        = (init_checkpoint id idPK none (chars "root") (chars "d.py") (chars "m.py") false wOne).1) ∧
    ∃ sel stored,
      dictLookup wOneAfterFresh.flagFiles (intToStr sel) = some stored ∧
      wOneAfterFresh.registry = stored ∧
      ((some (chars "abc12") : Option PyStr) = none → stored = freshFlags id idPK wOne) ∧
      (∀ hsh, (some (chars "abc12") : Option PyStr) = some hsh →
        stored = dictUpdate (freshFlags id idPK wOne) [(chars "git_commit", hsh)] ∧
        dictLookup stored (chars "git_commit") = some hsh) :=
  claim_C9_git_best_effort id idPK (some (chars "abc12")) (chars "root") (chars "d.py")
    (chars "m.py") wOne (chars "root/2") none wOneAfterFresh rfl

/-- Claim C10: parse_flags restores every pre-existing registry entry after
the parsing pass, so command-line values never override values already in
the registry, and the returned mapping agrees.  The external
FLAGS._parse_flags collaborator is universally quantified. -/
theorem claim_C10_registry_precedence (pk : FlagSet → List PyStr → FlagSet × List PyStr)
    (w : World) (key v : PyStr) (h : dictLookup w.registry key = some v) :
    dictLookup (parse_flags pk w).1 key = some v ∧
    dictLookup ((parse_flags pk w).2).registry key = some v := by
  unfold parse_flags
  dsimp only
  exact ⟨dictLookup_dictUpdate_of_new _ _ _ _ h, dictLookup_dictUpdate_of_new _ _ _ _ h⟩

/-- Witness for C10: overwritePK parses lr=77 from the command line, but the
pre-existing registry value 05 survives. -/
theorem claim_C10_witness :
    dictLookup wOne.registry (chars "lr") = some (chars "05") ∧
    dictLookup (parse_flags overwritePK wOne).1 (chars "lr") = some (chars "05") ∧
    dictLookup ((parse_flags overwritePK wOne).2).registry (chars "lr") = some (chars "05") :=
  ⟨rfl, (claim_C10_registry_precedence overwritePK wOne (chars "lr") (chars "05") rfl).1,
    (claim_C10_registry_precedence overwritePK wOne (chars "lr") (chars "05") rfl).2⟩

/-- Claim C5: on a folder whose entries are exactly a.ckpt-5, a.ckpt-5.index
and b.ckpt-12 (in any listing order), find_model_files returns a mapping
with exactly the keys 5 and 12, key 5 bound to the folder-joined a.ckpt-5
and key 12 to the folder-joined b.ckpt-12: the .index variant collapses onto
the same key and path as its non-index counterpart. -/
theorem c5_lookup_none_a (v5 v12 : PyStr) :
    ∀ k : Int, k ≠ 5 → k ≠ 12 → dictLookup [((5 : Int), v5), (12, v12)] k = none := by
  intro k hk5 hk12
  dsimp only [dictLookup]
  rw [if_neg (fun he => hk5 he.symm), if_neg (fun he => hk12 he.symm)]

theorem c5_lookup_none_b (v5 v12 : PyStr) :
    ∀ k : Int, k ≠ 5 → k ≠ 12 → dictLookup [((12 : Int), v12), (5, v5)] k = none := by
  intro k hk5 hk12
  dsimp only [dictLookup]
  rw [if_neg (fun he => hk12 he.symm), if_neg (fun he => hk5 he.symm)]

theorem claim_C5_find_model_files (dir : PyStr) (entries : List PyStr)
    (h : entries.Perm [chars "a.ckpt-5", chars "a.ckpt-5.index", chars "b.ckpt-12"]) :
    ∃ mf, find_model_files dir entries = .ok mf ∧
      dictLookup mf 5 = some (osJoin dir (chars "a.ckpt-5")) ∧
      dictLookup mf 12 = some (osJoin dir (chars "b.ckpt-12")) ∧
      ∀ k : Int, k ≠ 5 → k ≠ 12 → dictLookup mf k = none := by
  rcases perm3_cases h (by decide) (by decide) (by decide) with
    rfl | rfl | rfl | rfl | rfl | rfl
  · exact ⟨[(5, osJoin dir (chars "a.ckpt-5")), (12, osJoin dir (chars "b.ckpt-12"))],
      rfl, rfl, rfl, c5_lookup_none_a _ _⟩
  · exact ⟨[(5, osJoin dir (chars "a.ckpt-5")), (12, osJoin dir (chars "b.ckpt-12"))],
      rfl, rfl, rfl, c5_lookup_none_a _ _⟩
  · exact ⟨[(5, osJoin dir (chars "a.ckpt-5")), (12, osJoin dir (chars "b.ckpt-12"))],
      rfl, rfl, rfl, c5_lookup_none_a _ _⟩
  · exact ⟨[(5, osJoin dir (chars "a.ckpt-5")), (12, osJoin dir (chars "b.ckpt-12"))],
      rfl, rfl, rfl, c5_lookup_none_a _ _⟩
  · exact ⟨[(12, osJoin dir (chars "b.ckpt-12")), (5, osJoin dir (chars "a.ckpt-5"))],
      rfl, rfl, rfl, c5_lookup_none_b _ _⟩
  · exact ⟨[(12, osJoin dir (chars "b.ckpt-12")), (5, osJoin dir (chars "a.ckpt-5"))],
      rfl, rfl, rfl, c5_lookup_none_b _ _⟩

/-- Witness for C5 at the listing order of the claim and folder "d". -/
theorem claim_C5_witness :
    ([chars "a.ckpt-5", chars "a.ckpt-5.index", chars "b.ckpt-12"].Perm
      [chars "a.ckpt-5", chars "a.ckpt-5.index", chars "b.ckpt-12"]) ∧
    ∃ mf, find_model_files (chars "d")
        [chars "a.ckpt-5", chars "a.ckpt-5.index", chars "b.ckpt-12"] = .ok mf ∧
      dictLookup mf 5 = some (osJoin (chars "d") (chars "a.ckpt-5")) ∧
      dictLookup mf 12 = some (osJoin (chars "d") (chars "b.ckpt-12")) ∧
      ∀ k : Int, k ≠ 5 → k ≠ 12 → dictLookup mf k = none :=
  ⟨List.Perm.refl _, claim_C5_find_model_files (chars "d") _ (List.Perm.refl _)⟩

/-- Counterexample to C6 as stated: the source strips ".index" wherever it
occurs (str.replace, not a suffix strip) and maps the iteration number to
the folder-joined stripped name, not the original path.  On the single
entry x.index.ckpt-4 the claim predicts the mapping 4 ↦ d/x.index.ckpt-4
(the mid-name ".index" left intact), but the code produces 4 ↦ d/x.ckpt-4. -/
theorem claim_C6_counterexample :
    find_model_files (chars "d") [chars "x.index.ckpt-4"]
      = .ok [(4, chars "d/x.ckpt-4")] ∧
    chars "d/x.ckpt-4" ≠ osJoin (chars "d") (chars "x.index.ckpt-4") := by
  constructor
  · rfl
  · decide

/-- Claim C6 as amended: find_model_files removes every occurrence of
".index" anywhere in each entry name before matching, and its mapping sends
each iteration number to the folder-joined stripped name: every pair of the
result arises from some entry this way. -/
theorem claim_C6_stripped_paths {dir : PyStr} {entries : List PyStr}
    {mf : List (Int × PyStr)} (h : find_model_files dir entries = .ok mf) :
    ∀ k pth, (k, pth) ∈ mf → ∃ f ∈ entries,
      ckptMatch (pyReplace f (chars ".index")) = true ∧
      pth = osJoin dir (pyReplace f (chars ".index")) ∧
      extract_itr_from_modelfile (pyReplace f (chars ".index")) = .ok k := by
  intro k pth hm
  obtain ⟨f, hf, h1, h2, h3⟩ := find_model_files_shape h (k, pth) hm
  exact ⟨f, hf, h1, h3, h2⟩

/-- Witness for the amended C6 on the entry x.index.ckpt-4. -/
theorem claim_C6_witness :
    find_model_files (chars "d") [chars "x.index.ckpt-4"] = .ok [(4, chars "d/x.ckpt-4")] ∧
    ∃ f ∈ [chars "x.index.ckpt-4"],
      ckptMatch (pyReplace f (chars ".index")) = true ∧
      chars "d/x.ckpt-4" = osJoin (chars "d") (pyReplace f (chars ".index")) ∧
      extract_itr_from_modelfile (pyReplace f (chars ".index")) = .ok 4 :=
  ⟨rfl, @claim_C6_stripped_paths (chars "d") [chars "x.index.ckpt-4"]
    [(4, chars "d/x.ckpt-4")] rfl 4 (chars "d/x.ckpt-4") (by simp)⟩

/-- Counterexample to C7 as stated: a failing call can leave a freshly
created run folder behind.  On the empty root wBad with the unrecognized
argument --bogus, init_checkpoint creates folder "1" (os.mkdir, line 108)
and only then fails in assert_all_flags_parsed (line 117), so the error
escapes with the new folder already present in the root listing. -/
theorem claim_C7_counterexample :
    (init_checkpoint id idPK none (chars "root") (chars "d.py") (chars "m.py") false wBad).1
      = .error .unparsedFlags ∧
    (init_checkpoint id idPK none (chars "root") (chars "d.py") (chars "m.py") false wBad).2.children
      = [chars "1"] := by
  constructor
  · rfl
  · rfl

/-- Claim C7 as amended: only the root-validation/selection phase is free of
side effects.  When init_checkpoint fails with a configuration error
(missing root on resume, non-directory root, nothing to resume, unparsable
folder name) the world is returned unchanged; later failures, such as a
residual unrecognized flag, occur after the new run folder has been created
and the registry mutated. -/
theorem claim_C7_config_errors_pure (lf : FlagSet → FlagSet)
    (pk : FlagSet → List PyStr → FlagSet × List PyStr) (git : Option PyStr)
    (root dcfg mcfg : PyStr) (resume : Bool) (w : World) (e : Err) (w' : World)
    (h : init_checkpoint lf pk git root dcfg mcfg resume w = (.error e, w'))
    (hcfg : e.isConfigError = true) : w' = w :=
  init_config_error_frame h hcfg

/-- Witness for the amended C7: resuming on the missing root wMissing fails
with the world untouched. -/
theorem claim_C7_witness :
    (init_checkpoint id idPK none (chars "root") (chars "d.py") (chars "m.py") true wMissing).2
      = wMissing :=
  claim_C7_config_errors_pure id idPK none (chars "root") (chars "d.py") (chars "m.py")
    true wMissing .resumeRootMissing wMissing rfl rfl

/-- Claim C8: extract_itr_from_modelfile is pure and returns the integer
formed by the text between the last dash in the path and the first dot that
follows it (when no dash occurs, the whole path up to the first dot, as
Python split yields); in particular it maps model.ckpt-17 to 17, and it
fails with the int() ValueError exactly when that segment is not an
integer. -/
theorem claim_C8_extract_itr :
    (extract_itr_from_modelfile (chars "model.ckpt-17") = .ok 17) ∧
    ∀ p : PyStr, extract_itr_from_modelfile p =
      (match pyIntParse (lastDashSegment p) with
       | some n => .ok n
       | none => .error .extractParse) := by
  constructor
  · rfl
  · intro p
    unfold extract_itr_from_modelfile lastDashSegment
    rw [splitChar_getLastD, splitChar_headD]
